import Mathlib

/-!
Verification of the LaTeX command scanners of `categorize_arxiv.py`
(functions `char_gen`, `check_abstract`, `check_document`).

The scanners read the document one character at a time, maintain sliding
windows of the most recently seen characters to detect a fixed opening
literal, and then either look for a fixed closing keyword with the same
sliding-window technique, or count brace balance until it returns to zero.
The embedding below reproduces that control flow over `List Char`:
each Python loop becomes a structurally recursive function on the list of
characters not yet consumed, and the mutable locals become explicit
arguments.  The running `index` counts consumed characters (the Python
code increments it by `len(char) = 1` per iteration, so after consuming
the character at 0-based position `k` the index is `k + 1`).
-/

set_option autoImplicit false

namespace ArxivScan

/-- Entry `commands[0]` of `check_abstract`: the literal `\begin{abstract}` (16 chars). -/
def cmd0 : List Char := "\\begin\x7babstract\x7d".data

/-- Entry `commands[1]` of `check_abstract`: the literal `\abstract{` (10 chars). -/
def cmd1 : List Char := "\\abstract\x7b".data

/-- Entry `terminates[0]` of `check_abstract`: the literal `\end{abstract}` (14 chars). -/
def term0 : List Char := "\\end\x7babstract\x7d".data

/-- Entry `commands[0]` of `check_document`: the literal `\begin{document}` (16 chars). -/
def cmdD : List Char := "\\begin\x7bdocument\x7d".data

/-- Entry `terminates[0]` of `check_document`: the literal `\end{document}` (14 chars). -/
def termD : List Char := "\\end\x7bdocument\x7d".data

/--
One sliding-window update, as performed on each `word_seq`/`term_seq`:
`word_seq.append(char)` followed by `word_seq.pop(0)` whenever the length
exceeds the window size `n`.
-/
def slide (n : Nat) (w : List Char) (c : Char) : List Char :=
  if n < (w ++ [c]).length then (w ++ [c]).tail else w ++ [c]

/--
One brace-balance update of `nb_brackets`: increment on `{`, decrement on
`}` (`nb_brackets` is a Python `int`, embedded as `Int`).
-/
def braceStep (nb : Int) (c : Char) : Int :=
  nb + (if c = '\x7b' then 1 else 0) - (if c = '\x7d' then 1 else 0)

/--
The loop body of the generator `char_gen`: `while i <= len(tex_contents)-1:
yield tex_contents[i]; i += 1`.  The Python comparison is over mathematical
integers, and `i ≤ len - 1` there is equivalent to `i < len`.
-/
def char_gen_loop (tex : List Char) (i : Nat) : List Char :=
  if h : i < tex.length then tex.get ⟨i, h⟩ :: char_gen_loop tex (i + 1) else []
termination_by tex.length - i
decreasing_by omega

/-- Function `char_gen`: the sequence of characters yielded by the generator. -/
def char_gen (tex : List Char) : List Char := char_gen_loop tex 0

/--
The `command_found == 0` (and, for `check_document`, the only) termination
loop: slide a window of size `len(tgt)` over the remaining characters and
return `(True, start, index)` as soon as the window equals the closing
keyword `tgt`; return `(False, -1, -1)` when the stream is exhausted.
-/
def scanKey (tgt : List Char) : List Char → Nat → Int → List Char → Bool × Int × Int
  | [], _, _, _ => (false, -1, -1)
  | c :: cs, i, st, t =>
    let t2 := slide tgt.length t c
    if t2 = tgt then (true, st, ((i + 1 : Nat) : Int))
    else scanKey tgt cs (i + 1) st t2

/--
The `command_found == 1` termination loop of `check_abstract`: update
`nb_brackets` on each character and return `(True, start, index)` as soon
as `nb_brackets <= 0`; return `(False, -1, -1)` on exhaustion.
-/
def scanBrace : List Char → Nat → Int → Int → Bool × Int × Int
  | [], _, _, _ => (false, -1, -1)
  | c :: cs, i, st, nb =>
    let nb2 := braceStep nb c
    if nb2 ≤ 0 then (true, st, ((i + 1 : Nat) : Int))
    else scanBrace cs (i + 1) st nb2

/--
The main loop of `check_abstract` while `abstract` is `False`: both windows
are updated on each character; if `word_seqs[1]` matches `commands[1]` the
final values are `command_found = 1`, `start = index - 10` (when both
windows match on the same character, the later `for`-loop iteration
overwrites the values set by the earlier one, so `word_seqs[1]` takes
precedence); otherwise if `word_seqs[0]` matches `commands[0]`,
`command_found = 0` and `start = index - 16`.  In the same iteration the
`abstract is True` branch already processes the current character, so the
fresh `term_seq`/`nb_brackets` state absorbs it before the next character
is read.
-/
def scanOpen : List Char → Nat → List Char → List Char → Bool × Int × Int
  | [], _, _, _ => (false, -1, -1)
  | c :: cs, i, w0, w1 =>
    let v0 := slide cmd0.length w0 c
    let v1 := slide cmd1.length w1 c
    if v1 = cmd1 then
      let st : Int := ((i + 1 : Nat) : Int) - (cmd1.length : Int)
      let nb := braceStep 0 c
      if nb ≤ 0 then (true, st, ((i + 1 : Nat) : Int))
      else scanBrace cs (i + 1) st nb
    else if v0 = cmd0 then
      let st : Int := ((i + 1 : Nat) : Int) - (cmd0.length : Int)
      let t2 := slide term0.length [] c
      if t2 = term0 then (true, st, ((i + 1 : Nat) : Int))
      else scanKey term0 cs (i + 1) st t2
    else scanOpen cs (i + 1) v0 v1

/-- Function `check_abstract(tex_contents)` of the source. -/
def check_abstract (s : String) : Bool × Int × Int :=
  scanOpen (char_gen s.data) 0 [] []

/--
The main loop of `check_document` while `doc` is `False`: one window of
size `len(commands[0]) = 16`; on a match, `start = index - 16` and the
`doc is True` branch processes the current character in the same iteration.
-/
def scanDocOpen : List Char → Nat → List Char → Bool × Int × Int
  | [], _, _ => (false, -1, -1)
  | c :: cs, i, w =>
    let v := slide cmdD.length w c
    if v = cmdD then
      let st : Int := ((i + 1 : Nat) : Int) - (cmdD.length : Int)
      let t2 := slide termD.length [] c
      if t2 = termD then (true, st, ((i + 1 : Nat) : Int))
      else scanKey termD cs (i + 1) st t2
    else scanDocOpen cs (i + 1) v

/-- Function `check_document(tex_contents)` of the source. -/
def check_document (s : String) : Bool × Int × Int :=
  scanDocOpen (char_gen s.data) 0 []

/-- The last `n` characters of `l` (the contents of a full sliding window). -/
def lastN (n : Nat) (l : List Char) : List Char := l.drop (l.length - n)

/-- Predicate: `pat` occurs as a contiguous substring of `l`. -/
def hasOccur (pat : List Char) : List Char → Bool
  | [] => pat == []
  | c :: cs => pat.isPrefixOf (c :: cs) || hasOccur pat cs

/--
Both opening literals of `check_abstract` complete a match at the same
character, namely after consuming `k` characters of `s` (the sliding
window of a pattern equals the pattern exactly when the pattern is the
block of most recently consumed characters).
-/
def bothArmAt (s : List Char) (k : Nat) : Bool :=
  (lastN cmd0.length (s.take k) == cmd0) && (lastN cmd1.length (s.take k) == cmd1)

/--
Big-step transition relation of the keyword-termination loop: one
derivation per complete run of the loop, mirroring `scanKey`.  Used to
state that the scanner is a deterministic process of its input.
-/
inductive KeyRel (tgt : List Char) :
    List Char → Nat → Int → List Char → Bool × Int × Int → Prop where
  | exhaust (i : Nat) (st : Int) (t : List Char) :
      KeyRel tgt [] i st t (false, -1, -1)
  | hit (c : Char) (cs : List Char) (i : Nat) (st : Int) (t : List Char) :
      slide tgt.length t c = tgt →
      KeyRel tgt (c :: cs) i st t (true, st, ((i + 1 : Nat) : Int))
  | miss (c : Char) (cs : List Char) (i : Nat) (st : Int) (t : List Char)
      (r : Bool × Int × Int) :
      slide tgt.length t c ≠ tgt →
      KeyRel tgt cs (i + 1) st (slide tgt.length t c) r →
      KeyRel tgt (c :: cs) i st t r

/-- Big-step transition relation of the brace-balance loop, mirroring `scanBrace`. -/
inductive BraceRel : List Char → Nat → Int → Int → Bool × Int × Int → Prop where
  | exhaust (i : Nat) (st : Int) (nb : Int) :
      BraceRel [] i st nb (false, -1, -1)
  | hit (c : Char) (cs : List Char) (i : Nat) (st : Int) (nb : Int) :
      braceStep nb c ≤ 0 →
      BraceRel (c :: cs) i st nb (true, st, ((i + 1 : Nat) : Int))
  | miss (c : Char) (cs : List Char) (i : Nat) (st : Int) (nb : Int)
      (r : Bool × Int × Int) :
      ¬ braceStep nb c ≤ 0 →
      BraceRel cs (i + 1) st (braceStep nb c) r →
      BraceRel (c :: cs) i st nb r

/-- Big-step transition relation of `check_abstract`'s whole loop, mirroring `scanOpen`. -/
inductive AbsRel : List Char → Nat → List Char → List Char → Bool × Int × Int → Prop where
  | exhaust (i : Nat) (w0 w1 : List Char) :
      AbsRel [] i w0 w1 (false, -1, -1)
  | armBraceHit (c : Char) (cs : List Char) (i : Nat) (w0 w1 : List Char) :
      slide cmd1.length w1 c = cmd1 → braceStep 0 c ≤ 0 →
      AbsRel (c :: cs) i w0 w1
        (true, ((i + 1 : Nat) : Int) - (cmd1.length : Int), ((i + 1 : Nat) : Int))
  | armBrace (c : Char) (cs : List Char) (i : Nat) (w0 w1 : List Char)
      (r : Bool × Int × Int) :
      slide cmd1.length w1 c = cmd1 → ¬ braceStep 0 c ≤ 0 →
      BraceRel cs (i + 1) (((i + 1 : Nat) : Int) - (cmd1.length : Int))
        (braceStep 0 c) r →
      AbsRel (c :: cs) i w0 w1 r
  | armKeyHit (c : Char) (cs : List Char) (i : Nat) (w0 w1 : List Char) :
      slide cmd1.length w1 c ≠ cmd1 → slide cmd0.length w0 c = cmd0 →
      slide term0.length [] c = term0 →
      AbsRel (c :: cs) i w0 w1
        (true, ((i + 1 : Nat) : Int) - (cmd0.length : Int), ((i + 1 : Nat) : Int))
  | armKey (c : Char) (cs : List Char) (i : Nat) (w0 w1 : List Char)
      (r : Bool × Int × Int) :
      slide cmd1.length w1 c ≠ cmd1 → slide cmd0.length w0 c = cmd0 →
      slide term0.length [] c ≠ term0 →
      KeyRel term0 cs (i + 1) (((i + 1 : Nat) : Int) - (cmd0.length : Int))
        (slide term0.length [] c) r →
      AbsRel (c :: cs) i w0 w1 r
  | step (c : Char) (cs : List Char) (i : Nat) (w0 w1 : List Char)
      (r : Bool × Int × Int) :
      slide cmd1.length w1 c ≠ cmd1 → slide cmd0.length w0 c ≠ cmd0 →
      AbsRel cs (i + 1) (slide cmd0.length w0 c) (slide cmd1.length w1 c) r →
      AbsRel (c :: cs) i w0 w1 r

/-- Big-step transition relation of `check_document`'s loop, mirroring `scanDocOpen`. -/
inductive DocRel : List Char → Nat → List Char → Bool × Int × Int → Prop where
  | exhaust (i : Nat) (w : List Char) :
      DocRel [] i w (false, -1, -1)
  | armHit (c : Char) (cs : List Char) (i : Nat) (w : List Char) :
      slide cmdD.length w c = cmdD → slide termD.length [] c = termD →
      DocRel (c :: cs) i w
        (true, ((i + 1 : Nat) : Int) - (cmdD.length : Int), ((i + 1 : Nat) : Int))
  | armKey (c : Char) (cs : List Char) (i : Nat) (w : List Char)
      (r : Bool × Int × Int) :
      slide cmdD.length w c = cmdD → slide termD.length [] c ≠ termD →
      KeyRel termD cs (i + 1) (((i + 1 : Nat) : Int) - (cmdD.length : Int))
        (slide termD.length [] c) r →
      DocRel (c :: cs) i w r
  | step (c : Char) (cs : List Char) (i : Nat) (w : List Char)
      (r : Bool × Int × Int) :
      slide cmdD.length w c ≠ cmdD →
      DocRel cs (i + 1) (slide cmdD.length w c) r →
      DocRel (c :: cs) i w r

/-- Variant of `scanKey` instrumented with the number of loop iterations (characters consumed). -/
def scanKeyN (tgt : List Char) :
    List Char → Nat → Int → List Char → (Bool × Int × Int) × Nat
  | [], _, _, _ => ((false, -1, -1), 0)
  | c :: cs, i, st, t =>
    let t2 := slide tgt.length t c
    if t2 = tgt then ((true, st, ((i + 1 : Nat) : Int)), 1)
    else
      let q := scanKeyN tgt cs (i + 1) st t2
      (q.1, q.2 + 1)

/-- Variant of `scanBrace` instrumented with the number of loop iterations. -/
def scanBraceN : List Char → Nat → Int → Int → (Bool × Int × Int) × Nat
  | [], _, _, _ => ((false, -1, -1), 0)
  | c :: cs, i, st, nb =>
    let nb2 := braceStep nb c
    if nb2 ≤ 0 then ((true, st, ((i + 1 : Nat) : Int)), 1)
    else
      let q := scanBraceN cs (i + 1) st nb2
      (q.1, q.2 + 1)

/-- Variant of `scanOpen` instrumented with the number of loop iterations. -/
def scanOpenN : List Char → Nat → List Char → List Char → (Bool × Int × Int) × Nat
  | [], _, _, _ => ((false, -1, -1), 0)
  | c :: cs, i, w0, w1 =>
    let v0 := slide cmd0.length w0 c
    let v1 := slide cmd1.length w1 c
    if v1 = cmd1 then
      let st : Int := ((i + 1 : Nat) : Int) - (cmd1.length : Int)
      let nb := braceStep 0 c
      if nb ≤ 0 then ((true, st, ((i + 1 : Nat) : Int)), 1)
      else
        let q := scanBraceN cs (i + 1) st nb
        (q.1, q.2 + 1)
    else if v0 = cmd0 then
      let st : Int := ((i + 1 : Nat) : Int) - (cmd0.length : Int)
      let t2 := slide term0.length [] c
      if t2 = term0 then ((true, st, ((i + 1 : Nat) : Int)), 1)
      else
        let q := scanKeyN term0 cs (i + 1) st t2
        (q.1, q.2 + 1)
    else
      let q := scanOpenN cs (i + 1) v0 v1
      (q.1, q.2 + 1)

/-- Variant of `scanDocOpen` instrumented with the number of loop iterations. -/
def scanDocOpenN : List Char → Nat → List Char → (Bool × Int × Int) × Nat
  | [], _, _ => ((false, -1, -1), 0)
  | c :: cs, i, w =>
    let v := slide cmdD.length w c
    if v = cmdD then
      let st : Int := ((i + 1 : Nat) : Int) - (cmdD.length : Int)
      let t2 := slide termD.length [] c
      if t2 = termD then ((true, st, ((i + 1 : Nat) : Int)), 1)
      else
        let q := scanKeyN termD cs (i + 1) st t2
        (q.1, q.2 + 1)
    else
      let q := scanDocOpenN cs (i + 1) v
      (q.1, q.2 + 1)

/-- Variant of `check_abstract` carrying its iteration count. -/
def check_abstractN (s : String) : (Bool × Int × Int) × Nat :=
  scanOpenN (char_gen s.data) 0 [] []

/-- Variant of `check_document` carrying its iteration count. -/
def check_documentN (s : String) : (Bool × Int × Int) × Nat :=
  scanDocOpenN (char_gen s.data) 0 []

end ArxivScan

namespace ArxivScan

theorem char_gen_loop_eq (tex : List Char) : ∀ i, char_gen_loop tex i = tex.drop i := by
  have key : ∀ f i, tex.length - i ≤ f → char_gen_loop tex i = tex.drop i := by
    intro f
    induction f with
    | zero =>
      intro i h
      rw [char_gen_loop]
      have hni : ¬ i < tex.length := by omega
      have hd : tex.drop i = [] := List.drop_eq_nil_iff.mpr (by omega)
      simp [hni, hd]
    | succ f ih =>
      intro i h
      rw [char_gen_loop]
      by_cases hc : i < tex.length
      · simp only [hc, dite_true]
        rw [ih (i + 1) (by omega)]
        exact (List.drop_eq_getElem_cons hc).symm
      · have hd : tex.drop i = [] := List.drop_eq_nil_iff.mpr (by omega)
        simp [hc, hd]
  exact fun i => key (tex.length - i) i le_rfl

theorem char_gen_eq (tex : List Char) : char_gen tex = tex := by
  simp [char_gen, char_gen_loop_eq]

theorem check_abstract_run (s : String) :
    check_abstract s = scanOpen s.data 0 [] [] := by
  rw [check_abstract, char_gen_eq]

theorem check_document_run (s : String) :
    check_document s = scanDocOpen s.data 0 [] := by
  rw [check_document, char_gen_eq]

theorem length_lastN (n : Nat) (l : List Char) :
    (lastN n l).length = min n l.length := by
  simp [lastN]
  omega

theorem lastN_of_length_le {n : Nat} {l : List Char} (h : l.length ≤ n) :
    lastN n l = l := by
  have : l.length - n = 0 := by omega
  simp [lastN, this]

theorem lastN_append_right {n : Nat} (x : List Char) {y : List Char}
    (h : y.length = n) : lastN n (x ++ y) = y := by
  have hl : (x ++ y).length - n = x.length := by simp [List.length_append]; omega
  rw [lastN, hl, List.drop_left]

theorem slide_lastN (n : Nat) (p : List Char) (c : Char) :
    slide n (lastN n p) c = lastN n (p ++ [c]) := by
  rcases Nat.eq_zero_or_pos n with hn | hn
  · subst hn
    have h1 : lastN 0 p = [] := by simp [lastN]
    have h2 : lastN 0 (p ++ [c]) = [] := by simp [lastN]
    simp [slide, h1, h2]
  by_cases h : p.length < n
  · have h1 : lastN n p = p := lastN_of_length_le (by omega)
    have h2 : lastN n (p ++ [c]) = p ++ [c] :=
      lastN_of_length_le (by simp [List.length_append]; omega)
    have h3 : ¬ n < p.length + 1 := by omega
    simp [slide, h1, h2, h3]
  · have hlen : (lastN n p).length = n := by rw [length_lastN]; omega
    have h3 : n < (lastN n p ++ [c]).length := by simp [List.length_append, hlen]
    have hne : lastN n p ≠ [] := by
      intro hnil
      rw [hnil] at hlen
      simp at hlen
      omega
    rw [slide, if_pos h3, List.tail_append_singleton_of_ne_nil hne]
    rw [lastN, List.tail_drop]
    have harith : (p ++ [c]).length - n = (p.length - n) + 1 := by
      simp [List.length_append]; omega
    rw [lastN, harith, List.drop_append_of_le_length (by omega)]

theorem slide_sub (n : Nat) (w : List Char) (c : Char) :
    ∃ d, w ++ [c] = d ++ slide n w c := by
  by_cases h : n < (w ++ [c]).length
  · rw [slide, if_pos h]
    cases hw : w ++ [c] with
    | nil => simp at hw
    | cons a t => exact ⟨[a], by simp [hw]⟩
  · rw [slide, if_neg h]
    exact ⟨[], rfl⟩

theorem isPrefixOf_self_append (pat r : List Char) :
    pat.isPrefixOf (pat ++ r) = true := by
  induction pat with
  | nil => simp [List.isPrefixOf]
  | cons a t ih => simp [List.isPrefixOf, ih]

theorem occ_decomp (x pat y : List Char) : hasOccur pat (x ++ pat ++ y) = true := by
  induction x with
  | nil =>
    rw [List.nil_append]
    cases hp : pat ++ y with
    | nil =>
      have hpe : pat = [] := (List.append_eq_nil.mp hp).1
      simp [hpe, hasOccur]
    | cons c cs =>
      rw [hasOccur, Bool.or_eq_true]
      left
      rw [← hp]
      exact isPrefixOf_self_append pat y
  | cons a x ih =>
    have hax : (a :: x) ++ pat ++ y = a :: (x ++ pat ++ y) := by simp
    rw [hax, hasOccur, Bool.or_eq_true]
    right
    exact ih

theorem occ_mono_left (d l pat : List Char) (h : hasOccur pat l = true) :
    hasOccur pat (d ++ l) = true := by
  induction d with
  | nil => simpa using h
  | cons a d ih =>
    have had : (a :: d) ++ l = a :: (d ++ l) := by simp
    rw [had, hasOccur, Bool.or_eq_true]
    right
    exact ih

/-- A full window matching at the end of a prefix yields an occurrence. -/
theorem occ_of_lastN {n : Nat} {z pat : List Char} (w : List Char)
    (h : lastN n z = pat) : hasOccur pat (z ++ w) = true := by
  have hz : z = z.take (z.length - n) ++ pat := by
    rw [← h]
    exact (List.take_append_drop _ z).symm
  rw [hz, List.append_assoc, ← List.append_assoc]
  exact occ_decomp _ _ _

theorem lastN_nil (n : Nat) : lastN n [] = [] := by simp [lastN]

theorem isPrefixOf_append_mono : ∀ (pat l r : List Char),
    pat.isPrefixOf l = true → pat.isPrefixOf (l ++ r) = true := by
  intro pat
  induction pat with
  | nil => intro l r _; simp [List.isPrefixOf]
  | cons a pt ih =>
    intro l r h
    cases l with
    | nil => simp [List.isPrefixOf] at h
    | cons b lt =>
      simp only [List.isPrefixOf, Bool.and_eq_true] at h
      simp only [List.cons_append, List.isPrefixOf, Bool.and_eq_true]
      exact ⟨h.1, ih lt r h.2⟩

theorem occ_mono_right : ∀ (l r pat : List Char),
    hasOccur pat l = true → hasOccur pat (l ++ r) = true := by
  intro l
  induction l with
  | nil =>
    intro r pat h
    rw [hasOccur] at h
    have hpe : pat = [] := by simpa using h
    subst hpe
    cases r with
    | nil => rfl
    | cons c cs => rw [List.nil_append, hasOccur]; simp [List.isPrefixOf]
  | cons c cs ih =>
    intro r pat h
    rw [hasOccur, Bool.or_eq_true] at h
    rw [List.cons_append, hasOccur, Bool.or_eq_true]
    cases h with
    | inl hp =>
      left
      have := isPrefixOf_append_mono pat (c :: cs) r hp
      rw [List.cons_append] at this
      exact this
    | inr ho => right; exact ih r pat ho

theorem cmd0_len : cmd0.length = 16 := by decide

theorem cmd1_len : cmd1.length = 10 := by decide

theorem term0_len : term0.length = 14 := by decide

theorem cmdD_len : cmdD.length = 16 := by decide

theorem termD_len : termD.length = 14 := by decide

theorem scanKey_inv (tgt : List Char) (cs : List Char) :
    ∀ (i : Nat) (st : Int) (t : List Char),
      ((scanKey tgt cs i st t).1 = false → scanKey tgt cs i st t = (false, -1, -1)) ∧
      ((scanKey tgt cs i st t).1 = true →
        (scanKey tgt cs i st t).2.1 = st ∧
        (i : Int) < (scanKey tgt cs i st t).2.2 ∧
        (scanKey tgt cs i st t).2.2 ≤ ((i + cs.length : Nat) : Int)) := by
  induction cs with
  | nil =>
    intro i st t
    exact ⟨fun _ => rfl, fun hf => by simp [scanKey] at hf⟩
  | cons c cs ih =>
    intro i st t
    by_cases h : slide tgt.length t c = tgt
    · simp only [scanKey]
      rw [if_pos h]
      refine ⟨fun hf => by simp at hf, fun _ => ⟨rfl, ?_, ?_⟩⟩
      · push_cast
        omega
      · push_cast [List.length_cons]
        omega
    · simp only [scanKey]
      rw [if_neg h]
      obtain ⟨h1, h2⟩ := ih (i + 1) st (slide tgt.length t c)
      refine ⟨h1, fun hf => ?_⟩
      obtain ⟨ha, hb, hc2⟩ := h2 hf
      refine ⟨ha, ?_, ?_⟩
      · push_cast at hb ⊢
        omega
      · push_cast [List.length_cons] at hc2 ⊢
        omega

theorem scanBrace_inv (cs : List Char) :
    ∀ (i : Nat) (st : Int) (nb : Int),
      ((scanBrace cs i st nb).1 = false → scanBrace cs i st nb = (false, -1, -1)) ∧
      ((scanBrace cs i st nb).1 = true →
        (scanBrace cs i st nb).2.1 = st ∧
        (i : Int) < (scanBrace cs i st nb).2.2 ∧
        (scanBrace cs i st nb).2.2 ≤ ((i + cs.length : Nat) : Int)) := by
  induction cs with
  | nil =>
    intro i st nb
    exact ⟨fun _ => rfl, fun hf => by simp [scanBrace] at hf⟩
  | cons c cs ih =>
    intro i st nb
    by_cases h : braceStep nb c ≤ 0
    · simp only [scanBrace]
      rw [if_pos h]
      refine ⟨fun hf => by simp at hf, fun _ => ⟨rfl, ?_, ?_⟩⟩
      · push_cast
        omega
      · push_cast [List.length_cons]
        omega
    · simp only [scanBrace]
      rw [if_neg h]
      obtain ⟨h1, h2⟩ := ih (i + 1) st (braceStep nb c)
      refine ⟨h1, fun hf => ?_⟩
      obtain ⟨ha, hb, hc2⟩ := h2 hf
      refine ⟨ha, ?_, ?_⟩
      · push_cast at hb ⊢
        omega
      · push_cast [List.length_cons] at hc2 ⊢
        omega

theorem scanOpen_inv (cs : List Char) :
    ∀ (p : List Char),
      ((scanOpen cs p.length (lastN cmd0.length p) (lastN cmd1.length p)).1 = false →
        scanOpen cs p.length (lastN cmd0.length p) (lastN cmd1.length p) = (false, -1, -1)) ∧
      ((scanOpen cs p.length (lastN cmd0.length p) (lastN cmd1.length p)).1 = true →
        0 ≤ (scanOpen cs p.length (lastN cmd0.length p) (lastN cmd1.length p)).2.1 ∧
        (scanOpen cs p.length (lastN cmd0.length p) (lastN cmd1.length p)).2.1 <
          (scanOpen cs p.length (lastN cmd0.length p) (lastN cmd1.length p)).2.2 ∧
        (scanOpen cs p.length (lastN cmd0.length p) (lastN cmd1.length p)).2.2 ≤
          ((p.length + cs.length : Nat) : Int)) := by
  induction cs with
  | nil =>
    intro p
    exact ⟨fun _ => rfl, fun hf => by simp [scanOpen] at hf⟩
  | cons c cs ih =>
    intro p
    have e0 := slide_lastN cmd0.length p c
    have e1 := slide_lastN cmd1.length p c
    simp only [scanOpen]
    rw [e0, e1]
    have hc1 := cmd1_len
    have hc0 := cmd0_len
    by_cases h1 : lastN cmd1.length (p ++ [c]) = cmd1
    · rw [if_pos h1]
      have hlen1 : cmd1.length ≤ p.length + 1 := by
        have hh := congrArg List.length h1
        rw [length_lastN, List.length_append, List.length_singleton] at hh
        omega
      by_cases hnb : braceStep 0 c ≤ 0
      · rw [if_pos hnb]
        refine ⟨fun hf => by simp at hf, fun _ => ⟨?_, ?_, ?_⟩⟩
        · push_cast
          omega
        · push_cast
          omega
        · push_cast [List.length_cons]
          omega
      · rw [if_neg hnb]
        obtain ⟨b1, b2⟩ := scanBrace_inv cs (p.length + 1)
          (((p.length + 1 : Nat) : Int) - (cmd1.length : Int)) (braceStep 0 c)
        refine ⟨b1, fun hf => ?_⟩
        obtain ⟨ha, hb, hc2⟩ := b2 hf
        rw [ha]
        push_cast [List.length_cons] at hb hc2 ⊢
        omega
    · rw [if_neg h1]
      by_cases h0 : lastN cmd0.length (p ++ [c]) = cmd0
      · rw [if_pos h0]
        have hlen0 : cmd0.length ≤ p.length + 1 := by
          have hh := congrArg List.length h0
          rw [length_lastN, List.length_append, List.length_singleton] at hh
          omega
        by_cases ht : slide term0.length [] c = term0
        · rw [if_pos ht]
          refine ⟨fun hf => by simp at hf, fun _ => ⟨?_, ?_, ?_⟩⟩
          · push_cast
            omega
          · push_cast
            omega
          · push_cast [List.length_cons]
            omega
        · rw [if_neg ht]
          obtain ⟨k1, k2⟩ := scanKey_inv term0 cs (p.length + 1)
            (((p.length + 1 : Nat) : Int) - (cmd0.length : Int)) (slide term0.length [] c)
          refine ⟨k1, fun hf => ?_⟩
          obtain ⟨ha, hb, hc2⟩ := k2 hf
          rw [ha]
          push_cast [List.length_cons] at hb hc2 ⊢
          omega
      · rw [if_neg h0]
        have hp : (p ++ [c]).length = p.length + 1 := by simp
        obtain ⟨g1, g2⟩ := ih (p ++ [c])
        rw [hp] at g1 g2
        refine ⟨g1, fun hf => ?_⟩
        obtain ⟨ha, hb, hc2⟩ := g2 hf
        refine ⟨ha, hb, ?_⟩
        push_cast [List.length_cons] at hc2 ⊢
        omega

theorem scanDocOpen_inv (cs : List Char) :
    ∀ (p : List Char),
      ((scanDocOpen cs p.length (lastN cmdD.length p)).1 = false →
        scanDocOpen cs p.length (lastN cmdD.length p) = (false, -1, -1)) ∧
      ((scanDocOpen cs p.length (lastN cmdD.length p)).1 = true →
        0 ≤ (scanDocOpen cs p.length (lastN cmdD.length p)).2.1 ∧
        (scanDocOpen cs p.length (lastN cmdD.length p)).2.1 <
          (scanDocOpen cs p.length (lastN cmdD.length p)).2.2 ∧
        (scanDocOpen cs p.length (lastN cmdD.length p)).2.2 ≤
          ((p.length + cs.length : Nat) : Int)) := by
  induction cs with
  | nil =>
    intro p
    exact ⟨fun _ => rfl, fun hf => by simp [scanDocOpen] at hf⟩
  | cons c cs ih =>
    intro p
    have e0 := slide_lastN cmdD.length p c
    have hcD := cmdD_len
    simp only [scanDocOpen]
    rw [e0]
    by_cases h0 : lastN cmdD.length (p ++ [c]) = cmdD
    · rw [if_pos h0]
      have hlen0 : cmdD.length ≤ p.length + 1 := by
        have hh := congrArg List.length h0
        rw [length_lastN, List.length_append, List.length_singleton] at hh
        omega
      by_cases ht : slide termD.length [] c = termD
      · rw [if_pos ht]
        refine ⟨fun hf => by simp at hf, fun _ => ⟨?_, ?_, ?_⟩⟩
        · push_cast
          omega
        · push_cast
          omega
        · push_cast [List.length_cons]
          omega
      · rw [if_neg ht]
        obtain ⟨k1, k2⟩ := scanKey_inv termD cs (p.length + 1)
          (((p.length + 1 : Nat) : Int) - (cmdD.length : Int)) (slide termD.length [] c)
        refine ⟨k1, fun hf => ?_⟩
        obtain ⟨ha, hb, hc2⟩ := k2 hf
        rw [ha]
        push_cast [List.length_cons] at hb hc2 ⊢
        omega
    · rw [if_neg h0]
      have hp : (p ++ [c]).length = p.length + 1 := by simp
      obtain ⟨g1, g2⟩ := ih (p ++ [c])
      rw [hp] at g1 g2
      refine ⟨g1, fun hf => ?_⟩
      obtain ⟨ha, hb, hc2⟩ := g2 hf
      refine ⟨ha, hb, ?_⟩
      push_cast [List.length_cons] at hc2 ⊢
      omega

theorem scanOpen_walk (u : List Char) :
    ∀ (rest p : List Char),
      (∀ k, 1 ≤ k → k ≤ u.length →
        lastN cmd0.length (p ++ u.take k) ≠ cmd0 ∧
        lastN cmd1.length (p ++ u.take k) ≠ cmd1) →
      scanOpen (u ++ rest) p.length (lastN cmd0.length p) (lastN cmd1.length p) =
        scanOpen rest (p ++ u).length
          (lastN cmd0.length (p ++ u)) (lastN cmd1.length (p ++ u)) := by
  induction u with
  | nil => intro rest p _; simp
  | cons c u ih =>
    intro rest p h
    have e0 := slide_lastN cmd0.length p c
    have e1 := slide_lastN cmd1.length p c
    have hnc := h 1 le_rfl (by simp)
    rw [List.take_succ_cons, List.take_zero] at hnc
    obtain ⟨hn0, hn1⟩ := hnc
    rw [List.cons_append]
    simp only [scanOpen]
    rw [e0, e1, if_neg hn1, if_neg hn0]
    have hp : (p ++ [c]).length = p.length + 1 := by simp
    rw [← hp]
    have hcond : ∀ k, 1 ≤ k → k ≤ u.length →
        lastN cmd0.length ((p ++ [c]) ++ u.take k) ≠ cmd0 ∧
        lastN cmd1.length ((p ++ [c]) ++ u.take k) ≠ cmd1 := by
      intro k hk1 hk2
      have hke := h (k + 1) (by omega) (by simp; omega)
      rw [List.take_succ_cons] at hke
      have hassoc : (p ++ [c]) ++ u.take k = p ++ (c :: u.take k) := by simp
      rw [hassoc]
      exact hke
    rw [ih rest (p ++ [c]) hcond]
    have hfinal : (p ++ [c]) ++ u = p ++ (c :: u) := by simp
    rw [hfinal]

theorem scanDocOpen_walk (u : List Char) :
    ∀ (rest p : List Char),
      (∀ k, 1 ≤ k → k ≤ u.length → lastN cmdD.length (p ++ u.take k) ≠ cmdD) →
      scanDocOpen (u ++ rest) p.length (lastN cmdD.length p) =
        scanDocOpen rest (p ++ u).length (lastN cmdD.length (p ++ u)) := by
  induction u with
  | nil => intro rest p _; simp
  | cons c u ih =>
    intro rest p h
    have e0 := slide_lastN cmdD.length p c
    have hnc := h 1 le_rfl (by simp)
    rw [List.take_succ_cons, List.take_zero] at hnc
    rw [List.cons_append]
    simp only [scanDocOpen]
    rw [e0, if_neg hnc]
    have hp : (p ++ [c]).length = p.length + 1 := by simp
    rw [← hp]
    have hcond : ∀ k, 1 ≤ k → k ≤ u.length →
        lastN cmdD.length ((p ++ [c]) ++ u.take k) ≠ cmdD := by
      intro k hk1 hk2
      have hke := h (k + 1) (by omega) (by simp; omega)
      rw [List.take_succ_cons] at hke
      have hassoc : (p ++ [c]) ++ u.take k = p ++ (c :: u.take k) := by simp
      rw [hassoc]
      exact hke
    rw [ih rest (p ++ [c]) hcond]
    have hfinal : (p ++ [c]) ++ u = p ++ (c :: u) := by simp
    rw [hfinal]

theorem scanKey_walk (tgt : List Char) (u : List Char) :
    ∀ (rest t : List Char) (i : Nat) (st : Int),
      (∀ k, 1 ≤ k → k ≤ u.length → lastN tgt.length (t ++ u.take k) ≠ tgt) →
      scanKey tgt (u ++ rest) i st (lastN tgt.length t) =
        scanKey tgt rest (i + u.length) st (lastN tgt.length (t ++ u)) := by
  induction u with
  | nil => intro rest t i st _; simp
  | cons c u ih =>
    intro rest t i st h
    have e := slide_lastN tgt.length t c
    have hnc := h 1 le_rfl (by simp)
    rw [List.take_succ_cons, List.take_zero] at hnc
    rw [List.cons_append]
    simp only [scanKey]
    rw [e, if_neg hnc]
    have hcond : ∀ k, 1 ≤ k → k ≤ u.length →
        lastN tgt.length ((t ++ [c]) ++ u.take k) ≠ tgt := by
      intro k hk1 hk2
      have hke := h (k + 1) (by omega) (by simp; omega)
      rw [List.take_succ_cons] at hke
      have hassoc : (t ++ [c]) ++ u.take k = t ++ (c :: u.take k) := by simp
      rw [hassoc]
      exact hke
    rw [ih rest (t ++ [c]) (i + 1) st hcond]
    have hfinal : (t ++ [c]) ++ u = t ++ (c :: u) := by simp
    rw [hfinal, List.length_cons]
    congr 1
    omega

theorem scanBrace_walk (u : List Char) :
    ∀ (rest : List Char) (i : Nat) (st : Int) (nb : Int),
      (∀ k, k ≤ u.length → 0 < List.foldl braceStep nb (u.take k)) →
      scanBrace (u ++ rest) i st nb =
        scanBrace rest (i + u.length) st (List.foldl braceStep nb u) := by
  induction u with
  | nil => intro rest i st nb _; simp
  | cons c u ih =>
    intro rest i st nb h
    have hnb : 0 < braceStep nb c := by
      have hk := h 1 (by simp)
      rw [List.take_succ_cons, List.take_zero, List.foldl_cons, List.foldl_nil] at hk
      exact hk
    rw [List.cons_append]
    simp only [scanBrace]
    rw [if_neg (by omega)]
    have hcond : ∀ k, k ≤ u.length → 0 < List.foldl braceStep (braceStep nb c) (u.take k) := by
      intro k hk2
      have hke := h (k + 1) (by simp; omega)
      rw [List.take_succ_cons, List.foldl_cons] at hke
      exact hke
    rw [ih rest (i + 1) st (braceStep nb c) hcond]
    rw [List.foldl_cons, List.length_cons]
    congr 1
    omega

/--
If the closing keyword `tgt` never occurs in the part of the stream seen by
the termination loop (`t` is what it has already consumed, `cs` what
remains), the loop exhausts the stream and returns the sentinel.
-/
theorem scanKey_unterminated (tgt : List Char) (cs t : List Char) (i : Nat) (st : Int)
    (h : hasOccur tgt (t ++ cs) = false) :
    scanKey tgt cs i st (lastN tgt.length t) = (false, -1, -1) := by
  have hcond : ∀ k, 1 ≤ k → k ≤ cs.length → lastN tgt.length (t ++ cs.take k) ≠ tgt := by
    intro k _ _ hEq
    have hocc := occ_of_lastN (cs.drop k) hEq
    rw [List.append_assoc, List.take_append_drop] at hocc
    rw [hocc] at h
    exact Bool.noConfusion h
  have hw := scanKey_walk tgt cs [] t i st hcond
  rw [List.append_nil] at hw
  rw [hw]
  rfl

/--
If the brace balance stays strictly positive on every prefix of the
remaining stream, the brace-counting loop exhausts the stream and returns
the sentinel.
-/
theorem scanBrace_unterminated (cs : List Char) (i : Nat) (st : Int) (nb : Int)
    (h : ∀ k, k ≤ cs.length → 0 < List.foldl braceStep nb (cs.take k)) :
    scanBrace cs i st nb = (false, -1, -1) := by
  have hw := scanBrace_walk cs [] i st nb h
  rw [List.append_nil] at hw
  rw [hw]
  rfl

/-- A window over a prefix of `u ++ w` cannot equal a pattern absent from `u ++ w`. -/
theorem lastN_take_ne (pat u w : List Char) (n : Nat)
    (h : hasOccur pat (u ++ w) = false) (k : Nat) : lastN n (u.take k) ≠ pat := by
  intro hEq
  have hocc := occ_of_lastN (u.drop k) hEq
  rw [List.take_append_drop] at hocc
  have hocc2 := occ_mono_right u w pat hocc
  rw [hocc2] at h
  exact Bool.noConfusion h

/-- Walking `check_abstract`'s opening loop from the initial state. -/
theorem scanOpen_start (u rest : List Char)
    (hcond : ∀ k, 1 ≤ k → k ≤ u.length →
      lastN cmd0.length (u.take k) ≠ cmd0 ∧ lastN cmd1.length (u.take k) ≠ cmd1) :
    scanOpen (u ++ rest) 0 [] [] =
      scanOpen rest u.length (lastN cmd0.length u) (lastN cmd1.length u) := by
  have hw := scanOpen_walk u rest []
    (by intro k hk1 hk2; rw [List.nil_append]; exact hcond k hk1 hk2)
  rw [lastN_nil, lastN_nil, List.length_nil, List.nil_append] at hw
  exact hw

theorem cmd0_split (x y : List Char) :
    x ++ (cmd0 ++ y) = x ++ (cmd0.dropLast ++ ('\x7d' :: y)) := rfl

theorem cmd1_split (x y : List Char) :
    x ++ (cmd1 ++ y) = x ++ (cmd1.dropLast ++ ('\x7b' :: y)) := rfl

theorem term0_split (x y : List Char) :
    x ++ (term0 ++ y) = x ++ (term0.dropLast ++ ('\x7d' :: y)) := rfl

theorem foldl_braceStep_shift : ∀ (l : List Char) (x d : Int),
    List.foldl braceStep (x + d) l = List.foldl braceStep x l + d := by
  intro l
  induction l with
  | nil => intro x d; simp
  | cons c l ih =>
    intro x d
    rw [List.foldl_cons, List.foldl_cons]
    have hb : braceStep (x + d) c = braceStep x c + d := by
      simp only [braceStep]
      ring
    rw [hb, ih]

end ArxivScan

namespace ArxivScan

/--
C3: every triple returned by `check_abstract` or `check_document`
satisfies the ScanResult invariant: if `found` is `false` then
`start = end = -1`; if `found` is `true` then
`0 ≤ start < end ≤ length` of the input string.
-/
theorem claim_C3 (s : String) :
    ((check_abstract s).1 = false →
      (check_abstract s).2.1 = -1 ∧ (check_abstract s).2.2 = -1) ∧
    ((check_abstract s).1 = true →
      0 ≤ (check_abstract s).2.1 ∧
      (check_abstract s).2.1 < (check_abstract s).2.2 ∧
      (check_abstract s).2.2 ≤ (s.data.length : Int)) ∧
    ((check_document s).1 = false →
      (check_document s).2.1 = -1 ∧ (check_document s).2.2 = -1) ∧
    ((check_document s).1 = true →
      0 ≤ (check_document s).2.1 ∧
      (check_document s).2.1 < (check_document s).2.2 ∧
      (check_document s).2.2 ≤ (s.data.length : Int)) := by
  have ha := scanOpen_inv s.data []
  have hd := scanDocOpen_inv s.data []
  rw [lastN_nil, lastN_nil, List.length_nil] at ha
  rw [lastN_nil, List.length_nil] at hd
  rw [Nat.zero_add] at ha hd
  rw [check_abstract_run, check_document_run]
  refine ⟨fun hf => ?_, fun ht => ha.2 ht, fun hf => ?_, fun ht => hd.2 ht⟩
  · rw [ha.1 hf]
    exact ⟨rfl, rfl⟩
  · rw [hd.1 hf]
    exact ⟨rfl, rfl⟩

/-- Witness for C3 at concrete inputs covering both branches. -/
theorem claim_C3_witness :
    ((check_abstract "xy").2.1 = -1 ∧ (check_abstract "xy").2.2 = -1) ∧
    (0 ≤ (check_abstract "\\begin\x7babstract\x7d\\end\x7babstract\x7d").2.1 ∧
      (check_abstract "\\begin\x7babstract\x7d\\end\x7babstract\x7d").2.1 <
        (check_abstract "\\begin\x7babstract\x7d\\end\x7babstract\x7d").2.2) := by
  have h1 : (check_abstract "xy").1 = false := by
    rw [check_abstract_run]
    decide
  have h2 : (check_abstract "\\begin\x7babstract\x7d\\end\x7babstract\x7d").1 = true := by
    rw [check_abstract_run]
    decide
  exact ⟨(claim_C3 "xy").1 h1,
    ((claim_C3 "\\begin\x7babstract\x7d\\end\x7babstract\x7d").2.1 h2).1,
    ((claim_C3 "\\begin\x7babstract\x7d\\end\x7babstract\x7d").2.1 h2).2.1⟩

/--
C5: a document containing no occurrence of any configured opening literal
(`\begin{abstract}` and `\abstract{` for `check_abstract`;
`\begin{document}` for `check_document`) yields the sentinel
`(false, -1, -1)` as a normal return value.
-/
theorem claim_C5 :
    (∀ s : String, hasOccur cmd0 s.data = false → hasOccur cmd1 s.data = false →
      check_abstract s = (false, -1, -1)) ∧
    (∀ s : String, hasOccur cmdD s.data = false →
      check_document s = (false, -1, -1)) := by
  constructor
  · intro s h0 h1
    rw [check_abstract_run]
    have hcond : ∀ k, 1 ≤ k → k ≤ s.data.length →
        lastN cmd0.length (([] : List Char) ++ s.data.take k) ≠ cmd0 ∧
        lastN cmd1.length (([] : List Char) ++ s.data.take k) ≠ cmd1 := by
      intro k _ _
      rw [List.nil_append]
      constructor <;> intro hEq
      · have hocc := occ_of_lastN (s.data.drop k) hEq
        rw [List.take_append_drop] at hocc
        rw [hocc] at h0
        exact Bool.noConfusion h0
      · have hocc := occ_of_lastN (s.data.drop k) hEq
        rw [List.take_append_drop] at hocc
        rw [hocc] at h1
        exact Bool.noConfusion h1
    have hw := scanOpen_walk s.data [] [] hcond
    rw [List.append_nil, lastN_nil, lastN_nil, List.length_nil] at hw
    rw [hw]
    rfl
  · intro s h0
    rw [check_document_run]
    have hcond : ∀ k, 1 ≤ k → k ≤ s.data.length →
        lastN cmdD.length (([] : List Char) ++ s.data.take k) ≠ cmdD := by
      intro k _ _ hEq
      rw [List.nil_append] at hEq
      have hocc := occ_of_lastN (s.data.drop k) hEq
      rw [List.take_append_drop] at hocc
      rw [hocc] at h0
      exact Bool.noConfusion h0
    have hw := scanDocOpen_walk s.data [] [] hcond
    rw [List.append_nil, lastN_nil, List.length_nil] at hw
    rw [hw]
    rfl

/-- Witness for C5 at the spec's Example 3 and a document-scan input. -/
theorem claim_C5_witness :
    check_abstract "no commands here" = (false, -1, -1) ∧
    check_document "no commands here" = (false, -1, -1) :=
  ⟨claim_C5.1 "no commands here" (by decide) (by decide),
   claim_C5.2 "no commands here" (by decide)⟩

/--
C4: an opening literal that is never terminated before end of stream
yields `(false, -1, -1)`, discarding the discovered start offset.  The
first three conjuncts state this for the armed phases with an arbitrary
already-discovered `st`: once armed, if the closing keyword never occurs
in the rest of the stream (keyword mode), or the brace balance never
returns to zero (brace mode), the scan returns the sentinel, losing `st`.
The last three conjuncts are the boundary cases: a document exactly equal
to an opening literal returns `found = false`.
-/
theorem claim_C4 :
    (∀ (cs t : List Char) (i : Nat) (st : Int),
      hasOccur term0 (t ++ cs) = false →
      scanKey term0 cs i st (lastN term0.length t) = (false, -1, -1)) ∧
    (∀ (cs : List Char) (i : Nat) (st : Int) (nb : Int),
      (∀ k, k ≤ cs.length → 0 < List.foldl braceStep nb (cs.take k)) →
      scanBrace cs i st nb = (false, -1, -1)) ∧
    (∀ (cs t : List Char) (i : Nat) (st : Int),
      hasOccur termD (t ++ cs) = false →
      scanKey termD cs i st (lastN termD.length t) = (false, -1, -1)) ∧
    check_abstract "\\begin\x7babstract\x7d" = (false, -1, -1) ∧
    check_abstract "\\abstract\x7b" = (false, -1, -1) ∧
    check_document "\\begin\x7bdocument\x7d" = (false, -1, -1) := by
  refine ⟨fun cs t i st h => scanKey_unterminated term0 cs t i st h,
    fun cs i st nb h => scanBrace_unterminated cs i st nb h,
    fun cs t i st h => scanKey_unterminated termD cs t i st h, ?_, ?_, ?_⟩
  · rw [check_abstract_run]
    decide
  · rw [check_abstract_run]
    decide
  · rw [check_document_run]
    decide

/-- Witness for C4's conditional conjuncts at concrete armed states. -/
theorem claim_C4_witness :
    scanKey term0 "and more text".data 20 4 (lastN term0.length "\x7d".data) =
      (false, -1, -1) ∧
    scanBrace "no closing".data 12 2 1 = (false, -1, -1) := by
  constructor
  · exact claim_C4.1 "and more text".data "\x7d".data 20 4 (by decide)
  · refine claim_C4.2.1 "no closing".data 12 2 1 ?_
    intro k hk
    have hk2 : k ≤ 10 := by simpa using hk
    interval_cases k <;> decide

/--
C6: on the spec's Example 1, a 41-character document, `check_abstract`
returns `(true, 0, 41)`: `start = 0` is the 0-based offset of the leading
backslash and `end = 41` counts the characters up to and including the
closing brace of `\end{abstract}`.
-/
theorem claim_C6 :
    check_abstract "\\begin\x7babstract\x7dHello world\\end\x7babstract\x7d" =
      (true, 0, 41) := by
  rw [check_abstract_run]
  decide

/--
C7 counterexample: on the spec's Example 4 the code does not return
`(true, 0, 36)` (it returns `(true, 0, 37)`).
-/
theorem claim_C7_cex :
    check_document "\\begin\x7bdocument\x7dcontent\\end\x7bdocument\x7d" ≠
      (true, 0, 36) := by
  rw [check_document_run]
  decide

/--
C7 amended: on the 37-character input `\begin{document}content\end{document}`,
`check_document` returns `(true, 0, 37)`: `end` counts the characters up to
and including the final `}`, i.e. it is one past the 0-based position 36 of
that brace, consistent with the convention of Example 1 (`end = 41`).
-/
theorem claim_C7 :
    check_document "\\begin\x7bdocument\x7dcontent\\end\x7bdocument\x7d" =
      (true, 0, 37) := by
  rw [check_document_run]
  decide

/--
C1 counterexample: the document
`\abstract{x}\begin{abstract}y\end{abstract}` contains
`\begin{abstract}` (whose `\` is at 0-based index 12) followed by
`\end{abstract}` (closing `}` at index 42), with no nested
`\begin{abstract}`, yet `check_abstract` returns `(true, 0, 12)`: the
earlier `\abstract{` occurrence arms first, so `start` is neither 12 nor
13 and `end` is neither 42 nor 43 under any indexing convention.
-/
theorem claim_C1_cex :
    check_abstract
        "\\abstract\x7bx\x7d\\begin\x7babstract\x7dy\\end\x7babstract\x7d" =
      (true, 0, 12) ∧
    (check_abstract
        "\\abstract\x7bx\x7d\\begin\x7babstract\x7dy\\end\x7babstract\x7d").2.1 ≠ 12 ∧
    (check_abstract
        "\\abstract\x7bx\x7d\\begin\x7babstract\x7dy\\end\x7babstract\x7d").2.1 ≠ 13 ∧
    (check_abstract
        "\\abstract\x7bx\x7d\\begin\x7babstract\x7dy\\end\x7babstract\x7d").2.2 ≠ 42 ∧
    (check_abstract
        "\\abstract\x7bx\x7d\\begin\x7babstract\x7dy\\end\x7babstract\x7d").2.2 ≠ 43 := by
  rw [check_abstract_run]
  decide

/--
C1 amended: if the document decomposes as
`a ++ \begin{abstract} ++ b ++ \end{abstract} ++ c` where additionally
(i) `\abstract{` occurs nowhere in the document, (ii) no occurrence of
`\begin{abstract}` completes strictly before the displayed one, and
(iii) no occurrence of `\end{abstract}` completes strictly before the
displayed one in the part scanned by the termination loop, then
`check_abstract` returns `found = true`, `start = a.length` (the 0-based
index of the `\` of `\begin{abstract}`) and
`end = a.length + 16 + b.length + 14` (counting the characters up to and
including the closing `}` of `\end{abstract}`, i.e. one past its 0-based
index, the convention of the spec's Example 1).
-/
theorem claim_C1 (a b c : List Char) (s : String)
    (hs : s.data = a ++ (cmd0 ++ (b ++ (term0 ++ c))))
    (h1 : hasOccur cmd1 s.data = false)
    (h0 : hasOccur cmd0 (a ++ cmd0.dropLast) = false)
    (ht : hasOccur term0 ('\x7d' :: (b ++ term0.dropLast)) = false) :
    check_abstract s =
      (true, (a.length : Int), ((a.length + 16 + b.length + 14 : Nat) : Int)) := by
  have hdl0 : cmd0.dropLast.length = 15 := by decide
  have hdlt : term0.dropLast.length = 13 := by decide
  rw [check_abstract_run]
  have hstream : s.data =
      (a ++ cmd0.dropLast) ++ ('\x7d' :: (b ++ (term0 ++ c))) := by
    rw [hs, cmd0_split a (b ++ (term0 ++ c)), ← List.append_assoc]
  rw [hstream]
  have hcond : ∀ k, 1 ≤ k → k ≤ (a ++ cmd0.dropLast).length →
      lastN cmd0.length ((a ++ cmd0.dropLast).take k) ≠ cmd0 ∧
      lastN cmd1.length ((a ++ cmd0.dropLast).take k) ≠ cmd1 := by
    intro k _ _
    constructor
    · exact lastN_take_ne cmd0 (a ++ cmd0.dropLast) [] _
        (by rw [List.append_nil]; exact h0) k
    · refine lastN_take_ne cmd1 (a ++ cmd0.dropLast)
        ('\x7d' :: (b ++ (term0 ++ c))) _ ?_ k
      rw [← hstream]
      exact h1
  rw [scanOpen_start _ _ hcond]
  have he : (a ++ cmd0.dropLast) ++ ['\x7d'] = a ++ cmd0 := by
    rw [List.append_assoc]
    rfl
  have hwin0 : lastN cmd0.length ((a ++ cmd0.dropLast) ++ ['\x7d']) = cmd0 := by
    rw [he]
    exact lastN_append_right a rfl
  have hwin1 : lastN cmd1.length ((a ++ cmd0.dropLast) ++ ['\x7d']) ≠ cmd1 := by
    intro hEq
    have hocc := occ_of_lastN (b ++ (term0 ++ c)) hEq
    have he2 : ((a ++ cmd0.dropLast) ++ ['\x7d']) ++ (b ++ (term0 ++ c)) =
        s.data := by
      rw [hstream, List.append_assoc, List.singleton_append]
    rw [he2] at hocc
    rw [hocc] at h1
    exact Bool.noConfusion h1
  simp only [scanOpen]
  rw [slide_lastN, slide_lastN, if_neg hwin1, if_pos hwin0,
    if_neg (by decide : ¬ (slide term0.length [] '\x7d' = term0)),
    (by decide : slide term0.length [] '\x7d' = lastN term0.length ['\x7d'])]
  have htail : b ++ (term0 ++ c) = (b ++ term0.dropLast) ++ ('\x7d' :: c) := by
    rw [term0_split b c, ← List.append_assoc]
  rw [htail]
  have hcond2 : ∀ k, 1 ≤ k → k ≤ (b ++ term0.dropLast).length →
      lastN term0.length (['\x7d'] ++ (b ++ term0.dropLast).take k) ≠ term0 := by
    intro k _ _ hEq
    have hocc := occ_of_lastN ((b ++ term0.dropLast).drop k) hEq
    have he3 : (['\x7d'] ++ (b ++ term0.dropLast).take k) ++
        (b ++ term0.dropLast).drop k = '\x7d' :: (b ++ term0.dropLast) := by
      rw [List.append_assoc, List.take_append_drop, List.singleton_append]
    rw [he3] at hocc
    rw [hocc] at ht
    exact Bool.noConfusion ht
  rw [scanKey_walk term0 (b ++ term0.dropLast) ('\x7d' :: c) ['\x7d'] _ _ hcond2]
  simp only [scanKey]
  rw [slide_lastN]
  have hfin : lastN term0.length
      ((['\x7d'] ++ (b ++ term0.dropLast)) ++ ['\x7d']) = term0 := by
    have he4 : (['\x7d'] ++ (b ++ term0.dropLast)) ++ ['\x7d'] =
        ('\x7d' :: b) ++ term0 := by
      simp only [List.append_assoc, List.singleton_append, List.cons_append]
      rfl
    rw [he4]
    exact lastN_append_right _ rfl
  rw [if_pos hfin]
  have hlu : (a ++ cmd0.dropLast).length = a.length + 15 := by
    rw [List.length_append, hdl0]
  have hlu2 : (b ++ term0.dropLast).length = b.length + 13 := by
    rw [List.length_append, hdlt]
  have hst : (((a ++ cmd0.dropLast).length + 1 : Nat) : Int) -
      (cmd0.length : Int) = (a.length : Int) := by
    rw [hlu, cmd0_len]
    push_cast
    ring
  have hidx : (a ++ cmd0.dropLast).length + 1 + (b ++ term0.dropLast).length + 1 =
      a.length + 16 + b.length + 14 := by
    rw [hlu, hlu2]
    omega
  rw [hst, hidx]

/-- Witness for C1's amended statement on a concrete well-formed document. -/
theorem claim_C1_witness :
    check_abstract "\\begin\x7babstract\x7dA\\end\x7babstract\x7d" =
      (true, 0, 31) := by
  have h := claim_C1 [] "A".data []
    "\\begin\x7babstract\x7dA\\end\x7babstract\x7d"
    (by decide) (by decide) (by decide) (by decide)
  rw [(by decide : ("A".data).length = 1)] at h
  simpa using h

/--
C2 counterexample: on `\abstract{Nested {braces} here}` the returned `end`
is 31, not 30 (and also not the inner 24): the code reports the count of
characters up to and including the balance-restoring brace, one past its
0-based position 30.
-/
theorem claim_C2_cex :
    (check_abstract "\\abstract\x7bNested \x7bbraces\x7d here\x7d").2.2 ≠ 30 ∧
    (check_abstract "\\abstract\x7bNested \x7bbraces\x7d here\x7d").2.2 ≠ 24 := by
  rw [check_abstract_run]
  decide

/--
C2 amended: if the document decomposes as `a ++ \abstract{ ++ body ++ } ++ c`
where (i) neither opening literal completes strictly before the displayed
`\abstract{`, and (ii) `body` has balanced braces (every prefix has
non-negative balance and the total balance is zero), then `check_abstract`
returns `found = true` and `end = a.length + 10 + body.length + 1`, i.e.
exactly one past the 0-based position of the closing brace that brings the
balance back to zero — not of any inner closing brace.  In particular on
`\abstract{Nested {braces} here}` it returns `(true, 0, 31)`, designating
the final brace at 0-based position 30, not the inner one at position 24.
-/
theorem claim_C2 :
    (∀ (a body c : List Char) (s : String),
      s.data = a ++ (cmd1 ++ (body ++ ('\x7d' :: c))) →
      hasOccur cmd0 (a ++ cmd1.dropLast) = false →
      hasOccur cmd1 (a ++ cmd1.dropLast) = false →
      List.foldl braceStep 0 body = 0 →
      (∀ k, k ≤ body.length → 0 ≤ List.foldl braceStep 0 (body.take k)) →
      check_abstract s =
        (true, (a.length : Int), ((a.length + 10 + body.length + 1 : Nat) : Int))) ∧
    check_abstract "\\abstract\x7bNested \x7bbraces\x7d here\x7d" = (true, 0, 31) := by
  constructor
  · intro a body c s hs h0 h1 hbal hpre
    have hdl1 : cmd1.dropLast.length = 9 := by decide
    rw [check_abstract_run]
    have hstream : s.data =
        (a ++ cmd1.dropLast) ++ ('\x7b' :: (body ++ ('\x7d' :: c))) := by
      rw [hs, cmd1_split a (body ++ ('\x7d' :: c)), ← List.append_assoc]
    rw [hstream]
    have hcond : ∀ k, 1 ≤ k → k ≤ (a ++ cmd1.dropLast).length →
        lastN cmd0.length ((a ++ cmd1.dropLast).take k) ≠ cmd0 ∧
        lastN cmd1.length ((a ++ cmd1.dropLast).take k) ≠ cmd1 := by
      intro k _ _
      exact ⟨lastN_take_ne cmd0 (a ++ cmd1.dropLast) [] _
          (by rw [List.append_nil]; exact h0) k,
        lastN_take_ne cmd1 (a ++ cmd1.dropLast) [] _
          (by rw [List.append_nil]; exact h1) k⟩
    rw [scanOpen_start _ _ hcond]
    have he : (a ++ cmd1.dropLast) ++ ['\x7b'] = a ++ cmd1 := by
      rw [List.append_assoc]
      rfl
    have hwin1 : lastN cmd1.length ((a ++ cmd1.dropLast) ++ ['\x7b']) = cmd1 := by
      rw [he]
      exact lastN_append_right a rfl
    simp only [scanOpen]
    rw [slide_lastN, slide_lastN, if_pos hwin1,
      if_neg (by decide : ¬ (braceStep 0 '\x7b' ≤ 0)),
      (by decide : braceStep 0 '\x7b' = 1)]
    have hcond2 : ∀ k, k ≤ body.length →
        0 < List.foldl braceStep 1 (body.take k) := by
      intro k hk
      have hp := hpre k hk
      have hsh := foldl_braceStep_shift (body.take k) 0 1
      rw [zero_add] at hsh
      rw [hsh]
      omega
    rw [scanBrace_walk body ('\x7d' :: c) _ _ 1 hcond2]
    have hfb : List.foldl braceStep 1 body = 1 := by
      have hsh := foldl_braceStep_shift body 0 1
      rw [zero_add] at hsh
      rw [hsh, hbal]
      omega
    rw [hfb]
    simp only [scanBrace]
    rw [if_pos (by decide : braceStep 1 '\x7d' ≤ 0)]
    have hlu : (a ++ cmd1.dropLast).length = a.length + 9 := by
      rw [List.length_append, hdl1]
    have hst : (((a ++ cmd1.dropLast).length + 1 : Nat) : Int) -
        (cmd1.length : Int) = (a.length : Int) := by
      rw [hlu, cmd1_len]
      push_cast
      ring
    have hidx : (a ++ cmd1.dropLast).length + 1 + body.length + 1 =
        a.length + 10 + body.length + 1 := by
      rw [hlu]
    rw [hst, hidx]
  · rw [check_abstract_run]
    decide

/-- Witness for C2's amended general statement on a nested-brace document. -/
theorem claim_C2_witness :
    check_abstract "\\abstract\x7bhi \x7bx\x7d\x7d" = (true, 0, 17) := by
  have h := claim_C2.1 [] "hi \x7bx\x7d".data []
    "\\abstract\x7bhi \x7bx\x7d\x7d"
    (by decide) (by decide) (by decide) (by decide)
    (by
      intro k hk
      have hk2 : k ≤ 6 := by simpa using hk
      interval_cases k <;> decide)
  rw [(by decide : ("hi \x7bx\x7d".data).length = 6)] at h
  simpa using h

/--
The two opening literals of `check_abstract` can never have full windows
ending at the same character: the last 10 characters of `\begin{abstract}`
are `{abstract}`, not `\abstract{`.
-/
theorem both_impossible (u : List Char) (h0 : lastN cmd0.length u = cmd0) :
    lastN cmd1.length u ≠ cmd1 := by
  intro h1
  have hlen : 16 ≤ u.length := by
    have hh := congrArg List.length h0
    rw [length_lastN, cmd0_len] at hh
    omega
  have he : lastN cmd1.length u = lastN cmd1.length cmd0 := by
    rw [← h0]
    simp only [lastN, List.drop_drop, List.length_drop]
    congr 1
    rw [cmd0_len, cmd1_len]
    omega
  rw [he] at h1
  exact absurd h1 (by decide)

/--
C8: for every document and every position, it is impossible for both
configured opening patterns of `check_abstract` to complete a match at the
same character (`bothArmAt` states that both full sliding windows — the
most recently consumed `cmd.length` characters — equal their patterns
after `k` consumed characters).  Consequently, whenever a character arms
the scanner, exactly one pattern matches there, and `command_found`/`start`
are taken from that pattern — trivially the first-listed matching one, so
the spec's tie-break rule holds.  The second conjunct phrases the same
impossibility on the scanner's own branch conditions: a window update that
completes `\begin{abstract}` (the first-listed pattern) can never
simultaneously complete `\abstract{`.
-/
theorem claim_C8 :
    (∀ (s : List Char) (k : Nat), bothArmAt s k = false) ∧
    (∀ (p : List Char) (c : Char),
      slide cmd0.length (lastN cmd0.length p) c = cmd0 →
      slide cmd1.length (lastN cmd1.length p) c ≠ cmd1) := by
  constructor
  · intro s k
    rw [bothArmAt]
    by_cases h0 : lastN cmd0.length (s.take k) = cmd0
    · have h1 := both_impossible _ h0
      simp [h0, h1]
    · simp [h0]
  · intro p c h0 h1
    rw [slide_lastN] at h0 h1
    exact both_impossible _ h0 h1

/-- Witness for C8's conditional conjunct at a concrete window state. -/
theorem claim_C8_witness :
    slide cmd1.length (lastN cmd1.length "\\begin\x7babstract".data) '\x7d' ≠ cmd1 :=
  claim_C8.2 "\\begin\x7babstract".data '\x7d' (by decide)

theorem KeyRel_total (tgt : List Char) (cs : List Char) :
    ∀ (i : Nat) (st : Int) (t : List Char),
      KeyRel tgt cs i st t (scanKey tgt cs i st t) := by
  induction cs with
  | nil => intro i st t; exact KeyRel.exhaust i st t
  | cons c cs ih =>
    intro i st t
    by_cases h : slide tgt.length t c = tgt
    · simp only [scanKey]
      rw [if_pos h]
      exact KeyRel.hit c cs i st t h
    · simp only [scanKey]
      rw [if_neg h]
      exact KeyRel.miss c cs i st t _ h (ih (i + 1) st _)

theorem BraceRel_total (cs : List Char) :
    ∀ (i : Nat) (st : Int) (nb : Int),
      BraceRel cs i st nb (scanBrace cs i st nb) := by
  induction cs with
  | nil => intro i st nb; exact BraceRel.exhaust i st nb
  | cons c cs ih =>
    intro i st nb
    by_cases h : braceStep nb c ≤ 0
    · simp only [scanBrace]
      rw [if_pos h]
      exact BraceRel.hit c cs i st nb h
    · simp only [scanBrace]
      rw [if_neg h]
      exact BraceRel.miss c cs i st nb _ h (ih (i + 1) st _)

theorem AbsRel_total (cs : List Char) :
    ∀ (i : Nat) (w0 w1 : List Char),
      AbsRel cs i w0 w1 (scanOpen cs i w0 w1) := by
  induction cs with
  | nil => intro i w0 w1; exact AbsRel.exhaust i w0 w1
  | cons c cs ih =>
    intro i w0 w1
    by_cases h1 : slide cmd1.length w1 c = cmd1
    · by_cases hnb : braceStep 0 c ≤ 0
      · simp only [scanOpen]
        rw [if_pos h1, if_pos hnb]
        exact AbsRel.armBraceHit c cs i w0 w1 h1 hnb
      · simp only [scanOpen]
        rw [if_pos h1, if_neg hnb]
        exact AbsRel.armBrace c cs i w0 w1 _ h1 hnb (BraceRel_total cs (i + 1) _ _)
    · by_cases h0 : slide cmd0.length w0 c = cmd0
      · by_cases ht : slide term0.length [] c = term0
        · simp only [scanOpen]
          rw [if_neg h1, if_pos h0, if_pos ht]
          exact AbsRel.armKeyHit c cs i w0 w1 h1 h0 ht
        · simp only [scanOpen]
          rw [if_neg h1, if_pos h0, if_neg ht]
          exact AbsRel.armKey c cs i w0 w1 _ h1 h0 ht (KeyRel_total term0 cs (i + 1) _ _)
      · simp only [scanOpen]
        rw [if_neg h1, if_neg h0]
        exact AbsRel.step c cs i w0 w1 _ h1 h0 (ih (i + 1) _ _)

theorem DocRel_total (cs : List Char) :
    ∀ (i : Nat) (w : List Char),
      DocRel cs i w (scanDocOpen cs i w) := by
  induction cs with
  | nil => intro i w; exact DocRel.exhaust i w
  | cons c cs ih =>
    intro i w
    by_cases h0 : slide cmdD.length w c = cmdD
    · by_cases ht : slide termD.length [] c = termD
      · simp only [scanDocOpen]
        rw [if_pos h0, if_pos ht]
        exact DocRel.armHit c cs i w h0 ht
      · simp only [scanDocOpen]
        rw [if_pos h0, if_neg ht]
        exact DocRel.armKey c cs i w _ h0 ht (KeyRel_total termD cs (i + 1) _ _)
    · simp only [scanDocOpen]
      rw [if_neg h0]
      exact DocRel.step c cs i w _ h0 (ih (i + 1) _)

theorem KeyRel_det (tgt : List Char) {cs : List Char} {i : Nat} {st : Int}
    {t : List Char} {r1 r2 : Bool × Int × Int}
    (h1 : KeyRel tgt cs i st t r1) (h2 : KeyRel tgt cs i st t r2) : r1 = r2 := by
  induction h1 generalizing r2 with
  | exhaust i st t =>
    cases h2
    rfl
  | hit c cs i st t hh =>
    cases h2 with
    | hit => rfl
    | miss _ _ _ _ _ _ hne _ => exact absurd hh hne
  | miss c cs i st t r hne hrec ih =>
    cases h2 with
    | hit _ _ _ _ _ hh => exact absurd hh hne
    | miss _ _ _ _ _ _ _ hrec2 => exact ih hrec2

theorem BraceRel_det {cs : List Char} {i : Nat} {st : Int} {nb : Int}
    {r1 r2 : Bool × Int × Int}
    (h1 : BraceRel cs i st nb r1) (h2 : BraceRel cs i st nb r2) : r1 = r2 := by
  induction h1 generalizing r2 with
  | exhaust i st nb =>
    cases h2
    rfl
  | hit c cs i st nb hh =>
    cases h2 with
    | hit => rfl
    | miss _ _ _ _ _ _ hne _ => exact absurd hh hne
  | miss c cs i st nb r hne hrec ih =>
    cases h2 with
    | hit _ _ _ _ _ hh => exact absurd hh hne
    | miss _ _ _ _ _ _ _ hrec2 => exact ih hrec2

theorem AbsRel_det {cs : List Char} {i : Nat} {w0 w1 : List Char}
    {r1 r2 : Bool × Int × Int}
    (h1 : AbsRel cs i w0 w1 r1) (h2 : AbsRel cs i w0 w1 r2) : r1 = r2 := by
  induction h1 generalizing r2 with
  | exhaust i w0 w1 =>
    cases h2
    rfl
  | armBraceHit c cs i w0 w1 hm hb =>
    cases h2 with
    | armBraceHit => rfl
    | armBrace _ _ _ _ _ _ _ hnb _ => exact absurd hb hnb
    | armKeyHit _ _ _ _ _ hne _ _ => exact absurd hm hne
    | armKey _ _ _ _ _ _ hne _ _ _ => exact absurd hm hne
    | step _ _ _ _ _ _ hne _ _ => exact absurd hm hne
  | armBrace c cs i w0 w1 r hm hnb hrec =>
    cases h2 with
    | armBraceHit _ _ _ _ _ _ hb => exact absurd hb hnb
    | armBrace _ _ _ _ _ _ _ _ hrec2 => exact BraceRel_det hrec hrec2
    | armKeyHit _ _ _ _ _ hne _ _ => exact absurd hm hne
    | armKey _ _ _ _ _ _ hne _ _ _ => exact absurd hm hne
    | step _ _ _ _ _ _ hne _ _ => exact absurd hm hne
  | armKeyHit c cs i w0 w1 hne hm ht =>
    cases h2 with
    | armBraceHit _ _ _ _ _ hm2 _ => exact absurd hm2 hne
    | armBrace _ _ _ _ _ _ hm2 _ _ => exact absurd hm2 hne
    | armKeyHit => rfl
    | armKey _ _ _ _ _ _ _ _ hnt _ => exact absurd ht hnt
    | step _ _ _ _ _ _ _ hn0 _ => exact absurd hm hn0
  | armKey c cs i w0 w1 r hne hm hnt hrec =>
    cases h2 with
    | armBraceHit _ _ _ _ _ hm2 _ => exact absurd hm2 hne
    | armBrace _ _ _ _ _ _ hm2 _ _ => exact absurd hm2 hne
    | armKeyHit _ _ _ _ _ _ _ ht2 => exact absurd ht2 hnt
    | armKey _ _ _ _ _ _ _ _ _ hrec2 => exact KeyRel_det term0 hrec hrec2
    | step _ _ _ _ _ _ _ hn0 _ => exact absurd hm hn0
  | step c cs i w0 w1 r hn1 hn0 hrec ih =>
    cases h2 with
    | armBraceHit _ _ _ _ _ hm2 _ => exact absurd hm2 hn1
    | armBrace _ _ _ _ _ _ hm2 _ _ => exact absurd hm2 hn1
    | armKeyHit _ _ _ _ _ _ hm2 _ => exact absurd hm2 hn0
    | armKey _ _ _ _ _ _ _ hm2 _ _ => exact absurd hm2 hn0
    | step _ _ _ _ _ _ _ _ hrec2 => exact ih hrec2

theorem DocRel_det {cs : List Char} {i : Nat} {w : List Char}
    {r1 r2 : Bool × Int × Int}
    (h1 : DocRel cs i w r1) (h2 : DocRel cs i w r2) : r1 = r2 := by
  induction h1 generalizing r2 with
  | exhaust i w =>
    cases h2
    rfl
  | armHit c cs i w hm ht =>
    cases h2 with
    | armHit => rfl
    | armKey _ _ _ _ _ _ hnt _ => exact absurd ht hnt
    | step _ _ _ _ _ hn _ => exact absurd hm hn
  | armKey c cs i w r hm hnt hrec =>
    cases h2 with
    | armHit _ _ _ _ _ ht2 => exact absurd ht2 hnt
    | armKey _ _ _ _ _ _ _ hrec2 => exact KeyRel_det termD hrec hrec2
    | step _ _ _ _ _ hn _ => exact absurd hm hn
  | step c cs i w r hn hrec ih =>
    cases h2 with
    | armHit _ _ _ _ hm2 _ => exact absurd hm2 hn
    | armKey _ _ _ _ _ hm2 _ _ => exact absurd hm2 hn
    | step _ _ _ _ _ _ hrec2 => exact ih hrec2

/--
C9: the scanners are deterministic pure functions of their input.  The
big-step relations `AbsRel`/`DocRel` mirror the Python loops character by
character; every run from the freshly initialised state (`index = 0`,
empty windows — the locals are re-created on every invocation, so no state
is shared between calls) produces `check_abstract s` / `check_document s`,
and any two runs on the same input produce equal triples.
-/
theorem claim_C9 :
    (∀ s : String, AbsRel s.data 0 [] [] (check_abstract s)) ∧
    (∀ (s : String) (r1 r2 : Bool × Int × Int),
      AbsRel s.data 0 [] [] r1 → AbsRel s.data 0 [] [] r2 → r1 = r2) ∧
    (∀ s : String, DocRel s.data 0 [] (check_document s)) ∧
    (∀ (s : String) (r1 r2 : Bool × Int × Int),
      DocRel s.data 0 [] r1 → DocRel s.data 0 [] r2 → r1 = r2) := by
  refine ⟨fun s => ?_, fun s r1 r2 h1 h2 => AbsRel_det h1 h2,
    fun s => ?_, fun s r1 r2 h1 h2 => DocRel_det h1 h2⟩
  · rw [check_abstract_run]
    exact AbsRel_total s.data 0 [] []
  · rw [check_document_run]
    exact DocRel_total s.data 0 []

/--
Witness for C9: an explicitly constructed second run on a concrete input
is forced to agree with the function's value.
-/
theorem claim_C9_witness :
    check_abstract "ok" = (false, -1, -1) ∧
    check_document "ok" = (false, -1, -1) := by
  have hd : "ok".data = ['o', 'k'] := by decide
  have hrel : AbsRel "ok".data 0 [] [] (false, -1, -1) := by
    rw [hd]
    exact AbsRel.step 'o' ['k'] 0 [] [] _ (by decide) (by decide)
      (AbsRel.step 'k' [] 1 _ _ _ (by decide) (by decide)
        (AbsRel.exhaust 2 _ _))
  have hreld : DocRel "ok".data 0 [] (false, -1, -1) := by
    rw [hd]
    exact DocRel.step 'o' ['k'] 0 [] _ (by decide)
      (DocRel.step 'k' [] 1 _ _ (by decide)
        (DocRel.exhaust 2 _))
  exact ⟨claim_C9.2.1 "ok" _ _ (claim_C9.1 "ok") hrel,
    claim_C9.2.2.2 "ok" _ _ (claim_C9.2.2.1 "ok") hreld⟩

theorem scanKeyN_spec (tgt : List Char) (cs : List Char) :
    ∀ (i : Nat) (st : Int) (t : List Char),
      (scanKeyN tgt cs i st t).1 = scanKey tgt cs i st t ∧
      (scanKeyN tgt cs i st t).2 ≤ cs.length := by
  induction cs with
  | nil => intro i st t; exact ⟨rfl, Nat.le_refl 0⟩
  | cons c cs ih =>
    intro i st t
    by_cases h : slide tgt.length t c = tgt
    · simp only [scanKeyN, scanKey]
      rw [if_pos h, if_pos h]
      exact ⟨rfl, by simp⟩
    · simp only [scanKeyN, scanKey]
      rw [if_neg h, if_neg h]
      obtain ⟨ha, hb⟩ := ih (i + 1) st (slide tgt.length t c)
      exact ⟨ha, by simp only [List.length_cons]; omega⟩

theorem scanBraceN_spec (cs : List Char) :
    ∀ (i : Nat) (st : Int) (nb : Int),
      (scanBraceN cs i st nb).1 = scanBrace cs i st nb ∧
      (scanBraceN cs i st nb).2 ≤ cs.length := by
  induction cs with
  | nil => intro i st nb; exact ⟨rfl, Nat.le_refl 0⟩
  | cons c cs ih =>
    intro i st nb
    by_cases h : braceStep nb c ≤ 0
    · simp only [scanBraceN, scanBrace]
      rw [if_pos h, if_pos h]
      exact ⟨rfl, by simp⟩
    · simp only [scanBraceN, scanBrace]
      rw [if_neg h, if_neg h]
      obtain ⟨ha, hb⟩ := ih (i + 1) st (braceStep nb c)
      exact ⟨ha, by simp only [List.length_cons]; omega⟩

theorem scanOpenN_spec (cs : List Char) :
    ∀ (i : Nat) (w0 w1 : List Char),
      (scanOpenN cs i w0 w1).1 = scanOpen cs i w0 w1 ∧
      (scanOpenN cs i w0 w1).2 ≤ cs.length := by
  induction cs with
  | nil => intro i w0 w1; exact ⟨rfl, Nat.le_refl 0⟩
  | cons c cs ih =>
    intro i w0 w1
    by_cases h1 : slide cmd1.length w1 c = cmd1
    · by_cases hnb : braceStep 0 c ≤ 0
      · simp only [scanOpenN, scanOpen]
        rw [if_pos h1, if_pos h1, if_pos hnb, if_pos hnb]
        exact ⟨rfl, by simp⟩
      · simp only [scanOpenN, scanOpen]
        rw [if_pos h1, if_pos h1, if_neg hnb, if_neg hnb]
        obtain ⟨ha, hb⟩ := scanBraceN_spec cs (i + 1)
          (((i + 1 : Nat) : Int) - (cmd1.length : Int)) (braceStep 0 c)
        exact ⟨ha, by simp only [List.length_cons]; omega⟩
    · by_cases h0 : slide cmd0.length w0 c = cmd0
      · by_cases ht : slide term0.length [] c = term0
        · simp only [scanOpenN, scanOpen]
          rw [if_neg h1, if_neg h1, if_pos h0, if_pos h0, if_pos ht, if_pos ht]
          exact ⟨rfl, by simp⟩
        · simp only [scanOpenN, scanOpen]
          rw [if_neg h1, if_neg h1, if_pos h0, if_pos h0, if_neg ht, if_neg ht]
          obtain ⟨ha, hb⟩ := scanKeyN_spec term0 cs (i + 1)
            (((i + 1 : Nat) : Int) - (cmd0.length : Int)) (slide term0.length [] c)
          exact ⟨ha, by simp only [List.length_cons]; omega⟩
      · simp only [scanOpenN, scanOpen]
        rw [if_neg h1, if_neg h1, if_neg h0, if_neg h0]
        obtain ⟨ha, hb⟩ := ih (i + 1) (slide cmd0.length w0 c) (slide cmd1.length w1 c)
        exact ⟨ha, by simp only [List.length_cons]; omega⟩

theorem scanDocOpenN_spec (cs : List Char) :
    ∀ (i : Nat) (w : List Char),
      (scanDocOpenN cs i w).1 = scanDocOpen cs i w ∧
      (scanDocOpenN cs i w).2 ≤ cs.length := by
  induction cs with
  | nil => intro i w; exact ⟨rfl, Nat.le_refl 0⟩
  | cons c cs ih =>
    intro i w
    by_cases h0 : slide cmdD.length w c = cmdD
    · by_cases ht : slide termD.length [] c = termD
      · simp only [scanDocOpenN, scanDocOpen]
        rw [if_pos h0, if_pos h0, if_pos ht, if_pos ht]
        exact ⟨rfl, by simp⟩
      · simp only [scanDocOpenN, scanDocOpen]
        rw [if_pos h0, if_pos h0, if_neg ht, if_neg ht]
        obtain ⟨ha, hb⟩ := scanKeyN_spec termD cs (i + 1)
          (((i + 1 : Nat) : Int) - (cmdD.length : Int)) (slide termD.length [] c)
        exact ⟨ha, by simp only [List.length_cons]; omega⟩
    · simp only [scanDocOpenN, scanDocOpen]
      rw [if_neg h0, if_neg h0]
      obtain ⟨ha, hb⟩ := ih (i + 1) (slide cmdD.length w c)
      exact ⟨ha, by simp only [List.length_cons]; omega⟩

/--
C10: both scanners terminate on every finite input, returning a triple
after at most `length` loop iterations: the instrumented variants, which
count one iteration per character consumed, agree with the scanners and
consume at most the whole input; and `char_gen` yields exactly the
characters of the input, each once, in order.
-/
theorem claim_C10 (s : String) :
    (check_abstractN s).1 = check_abstract s ∧
    (check_abstractN s).2 ≤ s.data.length ∧
    (check_documentN s).1 = check_document s ∧
    (check_documentN s).2 ≤ s.data.length ∧
    char_gen s.data = s.data := by
  have ha := scanOpenN_spec s.data 0 [] []
  have hd := scanDocOpenN_spec s.data 0 []
  rw [check_abstractN, check_documentN, check_abstract, check_document, char_gen_eq]
  exact ⟨ha.1, ha.2, hd.1, hd.2, rfl⟩

end ArxivScan
